import Mathlib

/-!
# Verification of the CNNvsTransformer training/metric core (`utils.py`)

A shallow embedding of the confusion-matrix metric engine (`class IoU`),
the evaluator (`evaluate_model`) and the training supervisor
(`train_validate_model`) from `src/utils.py`, together with theorems
settling the specification claims about them.

Modelling conventions:
* numpy integer count arrays are `List ℕ` / `List (List ℕ)`;
* float values (losses, metric values) are `ℚ`; `np.Inf` is `⊤ : WithTop ℚ`;
* a float NaN produced by `0/0` is `Option.none`; `np.nanmean` averages the
  non-`none` entries;
* the model / optimizer / scheduler objects are opaque states (`ℕ`-coded),
  their training dynamics abstracted as functions of the epoch index;
* file writes (`torch.save`) are recorded in append-only logs.
-/

/-! ## Confusion-matrix metric engine: `class IoU` -/

/-- `np.bincount(xs, minlength=m)`: entry `v` counts occurrences of `v` in
`xs`; the result length is `max m (maximum value + 1)`. -/
def np_bincount (xs : List ℕ) (minlength : ℕ) : List ℕ :=
  (List.range (max minlength (xs.foldr (fun x m => max (x + 1) m) 0))).map
    (fun v => xs.count v)

/-- `.reshape(n, n)` of a flat vector: row `i` is the slice `[n*i, n*i+n)`.
(numpy raises when the vector length is not exactly `n*n`; in `_fast_hist`
that only happens when a predicted label is `≥ num_classes`, outside the
call contract, so the slicing model is exact on in-contract inputs.) -/
def reshape2 (n : ℕ) (v : List ℕ) : List (List ℕ) :=
  (List.range n).map (fun i => (v.drop (n * i)).take n)

/-- State of the `IoU` metric class: `num_classes`, the unused
`iou_metric` float set by `__init__`/`reset`, and the accumulated
`confusion_matrix` (`np.zeros((num_classes, num_classes))` holds integer
counts throughout, so `ℕ` entries). -/
structure IoU where
  iou_metric : ℚ
  num_classes : ℕ
  confusion_matrix : List (List ℕ)
deriving DecidableEq

/-- `IoU.__init__(num_classes)`. -/
def IoU.init (num_classes : ℕ) : IoU :=
  ⟨0, num_classes, List.replicate num_classes (List.replicate num_classes 0)⟩

/-- `IoU._fast_hist(label_true, label_pred)`: mask ground-truth labels to
`[0, num_classes)`, encode each surviving pixel as
`num_classes * true + pred`, bincount with `minlength = num_classes²` and
reshape to `num_classes × num_classes`.  Ground-truth labels are `ℤ` (the
mask checks `>= 0`); predicted labels are argmax indices, hence `ℕ`. -/
def IoU._fast_hist (num_classes : ℕ) (label_true : List ℤ) (label_pred : List ℕ) :
    List (List ℕ) :=
  let pairs := (label_true.zip label_pred).filter
    (fun tp => decide (0 ≤ tp.1 ∧ tp.1 < (num_classes : ℤ)))
  let vals := pairs.map (fun tp => num_classes * tp.1.toNat + tp.2)
  reshape2 num_classes (np_bincount vals (num_classes * num_classes))

/-- `torch.argmax` along the class dimension for one pixel: index of the
maximum score (first such index).  `y_preds[pixel]` is the list of
per-class scores. -/
def argmaxAux : List ℚ → ℕ → ℚ → ℕ → ℕ
  | [], best, _, _ => best
  | x :: xs, best, bestv, i =>
      if bestv < x then argmaxAux xs i x (i + 1) else argmaxAux xs best bestv (i + 1)

/-- `torch.argmax(scores)` for a single pixel's score vector. -/
def argmaxIdx : List ℚ → ℕ
  | [] => 0
  | x :: xs => argmaxAux xs 0 x 1

/-- Elementwise `+=` of two confusion matrices (numpy broadcasting never
triggers here: both operands are `num_classes × num_classes`). -/
def matAdd (A B : List (List ℕ)) : List (List ℕ) :=
  List.zipWith (List.zipWith (· + ·)) A B

/-- `IoU.update(y_preds, labels)`: `predicted_labels = argmax(y_preds, dim=1)`,
build the batch confusion matrix with `_fast_hist` on the flattened labels,
and add it onto the accumulated matrix.  A batch is given as the per-pixel
score rows (`y_preds`, length = number of pixels, each row = class scores)
and the flattened ground-truth labels. -/
def IoU.update (st : IoU) (y_preds : List (List ℚ)) (labels : List ℤ) : IoU :=
  let predicted_labels := y_preds.map argmaxIdx
  let batch_confusion_matrix :=
    IoU._fast_hist st.num_classes labels predicted_labels
  { st with confusion_matrix := matAdd st.confusion_matrix batch_confusion_matrix }

/-- `np.diag(hist)` for the square matrix `hist`. -/
def np_diag (M : List (List ℕ)) : List ℕ :=
  (List.range M.length).map (fun i => (M.getD i []).getD i 0)

/-- `hist.sum(axis=1)`: row sums. -/
def sum_axis1 (M : List (List ℕ)) : List ℕ :=
  M.map List.sum

/-- `hist.sum(axis=0)`: column sums (for the square matrices at hand). -/
def sum_axis0 (M : List (List ℕ)) : List ℕ :=
  (List.range M.length).map (fun j => (M.map (fun r => r.getD j 0)).sum)

/-- Float division of two counts with NaN as `none`.  In every division
`compute` performs, the denominator bounds the numerator from above
(row and column sums both contain the diagonal entry), so a zero
denominator always means `0/0 = NaN`, never `x/0 = inf`. -/
def divNan (a b : ℕ) : Option ℚ :=
  if b = 0 then none else some ((a : ℚ) / (b : ℚ))

/-- `np.nanmean`: mean of the non-NaN entries; NaN (with a runtime
warning) when every entry is NaN. -/
def nanmean (xs : List (Option ℚ)) : Option ℚ :=
  let present := xs.filterMap id
  if present.length = 0 then none else some (present.sum / (present.length : ℚ))

/-- The dict returned by `IoU.compute`. -/
structure MetricSnapshot where
  accuracy : Option ℚ
  miou : Option ℚ
  classwise_iou : List (Option ℚ)
  classwise_f1 : List (Option ℚ)
  f1_mean : Option ℚ
  matrix : List (List ℕ)
deriving DecidableEq

/-- The metric computation of `IoU.compute` on a given matrix `hist`:
`iu = diag / (rowsum + colsum - diag)`, `f1 = 2*diag / (rowsum + colsum)`,
`accuracy = diag.sum / total`, means via `np.nanmean`.  The `ℕ`
subtraction in the IoU denominator is exact because `diag[c] ≤ rowsum[c]`. -/
def computeFrom (hist : List (List ℕ)) : MetricSnapshot :=
  let d := np_diag hist
  let rs := sum_axis1 hist
  let cs := sum_axis0 hist
  let iu := List.zipWith divNan d
    (List.zipWith (fun a b => a - b) (List.zipWith (· + ·) rs cs) d)
  let f1 := List.zipWith divNan (d.map (2 * ·)) (List.zipWith (· + ·) rs cs)
  { accuracy := divNan d.sum (hist.map List.sum).sum
    miou := nanmean iu
    classwise_iou := iu
    classwise_f1 := f1
    f1_mean := nanmean f1
    matrix := hist }

/-- numpy truthiness of the `matrix` argument (`if matrix:`): an empty
array is falsy, a one-element array has its element's truth value, and an
array with more than one element raises `ValueError` (modelled as
`Except.error`). -/
def npTruthy (M : List (List ℕ)) : Except Unit Bool :=
  match M.flatten with
  | [] => Except.ok false
  | [x] => Except.ok (decide (x ≠ 0))
  | _ => Except.error ()

/-- `IoU.compute(matrix=None)`: start from the internal accumulated
matrix; if a matrix argument is given and truthy, use it instead; then
build the snapshot. -/
def IoU.compute (st : IoU) (matrix : Option (List (List ℕ))) :
    Except Unit MetricSnapshot :=
  match matrix with
  | none => Except.ok (computeFrom st.confusion_matrix)
  | some m =>
      match npTruthy m with
      | Except.error e => Except.error e
      | Except.ok true => Except.ok (computeFrom m)
      | Except.ok false => Except.ok (computeFrom st.confusion_matrix)

/-- `IoU.reset()`. -/
def IoU.reset (st : IoU) : IoU :=
  { st with
    iou_metric := 0
    confusion_matrix :=
      List.replicate st.num_classes (List.replicate st.num_classes 0) }

/-! ## Evaluator: `evaluate_model` -/

/-- One batch as seen by the evaluator/metric: per-pixel class-score rows
(flattened over batch and spatial dims) and the flattened ground-truth
labels. -/
def Batch := List (List ℚ) × List ℤ

/-- The `for inputs, labels in dataloader` loop of `evaluate_model`:
accumulate the loss sum and feed each batch once to the metric object.
The composite model-plus-criterion is abstracted as `lossOf`. -/
def evalLoop (lossOf : Batch → ℚ) : List Batch → ℚ → IoU → ℚ × IoU
  | [], total_loss, metric_object => (total_loss, metric_object)
  | b :: bs, total_loss, metric_object =>
      evalLoop lossOf bs (total_loss + lossOf b) (metric_object.update b.1 b.2)

/-- `evaluate_model`: fresh metric instance, one pass over the loader,
mean loss `= total_loss / len(dataloader)`, snapshot from `compute()`.
(The pass runs under `torch.no_grad()` and `model.eval()`; those are
runtime-mode effects with no counterpart in the value-level model.) -/
def evaluate_model (num_classes : ℕ) (lossOf : Batch → ℚ) (dataloader : List Batch) :
    ℚ × Except Unit MetricSnapshot :=
  let r := evalLoop lossOf dataloader 0 (IoU.init num_classes)
  (r.1 / (dataloader.length : ℚ), r.2.compute none)

/-! ## Training supervisor: `train_validate_model` -/

/-- The opaque model / optimizer / scheduler bundle whose states a
checkpoint persists (`'model'`, `'optimizer'`, `'lr_scheduler'` entries of
the saved dict); `sched = none` means no scheduler is configured. -/
structure SystemState where
  model : ℕ
  opt : ℕ
  sched : Option ℕ
deriving DecidableEq

/-- One entry of the `results` list (an `EpochRecord`): epoch index, mean
train loss, mean validation loss.  (The validation `MetricSnapshot` and the
wall-clock duration are also stored by the code; they are irrelevant to
every claim and omitted from the record model.) -/
structure EpochRecord where
  epoch : ℕ
  trainLoss : ℚ
  validationLoss : ℚ
deriving DecidableEq

/-- A checkpoint file (`*_last.pt` / `*_best.pt`): system states,
`min_val_loss` (possibly `np.Inf`), the `results` list, and the epoch at
which it was written. -/
structure Checkpoint where
  sys : SystemState
  min_val_loss : WithTop ℚ
  results : List EpochRecord
  epoch : ℕ
deriving DecidableEq

/-- The running state of the epoch loop, plus append-only logs of the
checkpoint writes (`torch.save` calls) to the `last` and `best` paths. -/
structure LoopState where
  results : List EpochRecord
  min_val_loss : WithTop ℚ
  best_epoch : ℤ
  lastSaves : List Checkpoint
  bestSaves : List Checkpoint
deriving DecidableEq

/-- The state computed by the startup/resume preamble of
`train_validate_model` before the epoch loop. -/
structure InitState where
  resumed : Bool
  epochs_trained : ℕ
  min_val_loss : WithTop ℚ
  best_epoch : ℤ
  results : List EpochRecord
  sys : SystemState
deriving DecidableEq

/-- Python's `min(results, key=lambda x: x['validationLoss'])` on a
nonempty list: the first record attaining the minimal validation loss. -/
def pyMinLoss (r : EpochRecord) (rs : List EpochRecord) : EpochRecord :=
  rs.foldl (fun b y => if y.validationLoss < b.validationLoss then y else b) r

/-- The startup/resume preamble: if a `last` checkpoint exists, load the
model and optimizer states (and the scheduler state when a scheduler is
configured: `if lr_scheduler:`) and the `results` list.  Then
`if results:` (nonempty): `epochs_trained = results[-1]['epoch'] + 1`,
recompute `min_val_loss` / `best_epoch` as the minimal recorded validation
loss and its epoch; else start fresh with `epochs_trained = 0`,
`min_val_loss = np.Inf`, `best_epoch = -1`. -/
def initRun (ckpt : Option Checkpoint) (sys0 : SystemState) : InitState :=
  let loaded :=
    match ckpt with
    | none => (sys0, ([] : List EpochRecord))
    | some c =>
        (⟨c.sys.model, c.sys.opt, if sys0.sched.isSome then c.sys.sched else sys0.sched⟩,
         c.results)
  match loaded with
  | (sys1, []) => ⟨false, 0, ⊤, -1, [], sys1⟩
  | (sys1, r :: rs) =>
      let last := (r :: rs).getLast (List.cons_ne_nil r rs)
      let best := pyMinLoss r rs
      ⟨true, last.epoch + 1, (best.validationLoss : ℚ), (best.epoch : ℤ), r :: rs, sys1⟩

/-- One iteration of the `for epoch in range(epochs_trained, num_epochs)`
body: train and validate (abstracted into the given per-epoch mean losses
`tl`, `vl` and the post-training system state `sysAt epoch`), append the
`EpochRecord`, always write the `last` checkpoint (with the *pre-update*
`min_val_loss`), then either save a `best` checkpoint on
`validation_loss <= min_val_loss`, or — `elif early_stop_threshold != -1`
and `epoch - best_epoch > early_stop_threshold` — `break`.  The returned
`Bool` is `false` exactly when the loop breaks. -/
def epochStep (tl vl : ℕ → ℚ) (sysAt : ℕ → SystemState) (early_stop_threshold : ℤ)
    (epoch : ℕ) (st : LoopState) : LoopState × Bool :=
  let record : EpochRecord := ⟨epoch, tl epoch, vl epoch⟩
  let results' := st.results ++ [record]
  let lastCkpt : Checkpoint := ⟨sysAt epoch, st.min_val_loss, results', epoch⟩
  let st1 : LoopState := { st with results := results', lastSaves := st.lastSaves ++ [lastCkpt] }
  if ((vl epoch : ℚ) : WithTop ℚ) ≤ st.min_val_loss then
    let bestCkpt : Checkpoint := ⟨sysAt epoch, ((vl epoch : ℚ) : WithTop ℚ), results', epoch⟩
    ({ st1 with
        min_val_loss := ((vl epoch : ℚ) : WithTop ℚ)
        best_epoch := (epoch : ℤ)
        bestSaves := st1.bestSaves ++ [bestCkpt] }, true)
  else if early_stop_threshold ≠ -1 ∧ (epoch : ℤ) - st.best_epoch > early_stop_threshold then
    (st1, false)
  else
    (st1, true)

/-- The epoch loop, driven by the number of remaining epochs
(`num_epochs - epochs_trained`); stops early when `epochStep` breaks. -/
def runEpochs (tl vl : ℕ → ℚ) (sysAt : ℕ → SystemState) (early_stop_threshold : ℤ) :
    ℕ → ℕ → LoopState → LoopState
  | 0, _, st => st
  | fuel + 1, epoch, st =>
      let r := epochStep tl vl sysAt early_stop_threshold epoch st
      if r.2 then runEpochs tl vl sysAt early_stop_threshold fuel (epoch + 1) r.1 else r.1

/-- What `train_validate_model` produces: `returned` is the function's
return value (`none` models Python's bare `return`, `some rs` the final
`pd.DataFrame(results)`), together with the logs of `last` and `best`
checkpoint writes. -/
structure RunResult where
  returned : Option (List EpochRecord)
  lastSaves : List Checkpoint
  bestSaves : List Checkpoint
deriving DecidableEq

/-- `train_validate_model`: resume preamble, then — if a resumed run has
already trained `num_epochs` epochs — return immediately (`return` with no
value, no training step, no checkpoint write); otherwise run the epoch
loop from `epochs_trained` and return the accumulated records.  Inputs:
`ckpt` is the `*_last.pt` contents when that file exists, `sys0` the
passed-in model/optimizer/scheduler, `sysAt e` their states after the
training phase of epoch `e`, `tl`/`vl` the per-epoch mean training and
validation losses, `early_stop` the patience argument (default `-1`). -/
def train_validate_model (num_epochs : ℕ) (ckpt : Option Checkpoint)
    (sys0 : SystemState) (sysAt : ℕ → SystemState) (tl vl : ℕ → ℚ)
    (early_stop : ℤ) : RunResult :=
  let ist := initRun ckpt sys0
  if ist.resumed ∧ num_epochs ≤ ist.epochs_trained then
    ⟨none, [], []⟩
  else
    let fin := runEpochs tl vl sysAt early_stop (num_epochs - ist.epochs_trained)
      ist.epochs_trained ⟨ist.results, ist.min_val_loss, ist.best_epoch, [], []⟩
    ⟨some fin.results, fin.lastSaves, fin.bestSaves⟩

/-! ## Helper lemmas on the resume preamble and the minimum scan -/

lemma pyMinLoss_cons (r y : EpochRecord) (ys : List EpochRecord) :
    pyMinLoss r (y :: ys) =
      pyMinLoss (if y.validationLoss < r.validationLoss then y else r) ys := rfl

lemma pyMinLoss_mem (r : EpochRecord) (rs : List EpochRecord) :
    pyMinLoss r rs ∈ r :: rs := by
  induction rs generalizing r with
  | nil => simp [pyMinLoss]
  | cons y ys ih =>
      rw [pyMinLoss_cons]
      rcases List.mem_cons.mp (ih (if y.validationLoss < r.validationLoss then y else r)) with
        h1 | h1
      · rw [h1]
        by_cases h : y.validationLoss < r.validationLoss
        · simp [h]
        · simp [h]
      · exact List.mem_cons_of_mem _ (List.mem_cons_of_mem _ h1)

lemma pyMinLoss_le (r : EpochRecord) (rs : List EpochRecord) :
    ∀ x ∈ r :: rs, (pyMinLoss r rs).validationLoss ≤ x.validationLoss := by
  induction rs generalizing r with
  | nil =>
      intro x hx
      simp only [List.mem_cons, List.not_mem_nil, or_false] at hx
      rw [hx]
      exact le_refl _
  | cons y ys ih =>
      intro x hx
      rw [pyMinLoss_cons]
      have hle_r :
          (if y.validationLoss < r.validationLoss then y else r).validationLoss ≤
            r.validationLoss := by
        by_cases h : y.validationLoss < r.validationLoss
        · simp [h, le_of_lt h]
        · simp [h]
      have hle_y :
          (if y.validationLoss < r.validationLoss then y else r).validationLoss ≤
            y.validationLoss := by
        by_cases h : y.validationLoss < r.validationLoss
        · simp [h]
        · simp [h, le_of_not_lt h]
      have hmin :
          (pyMinLoss (if y.validationLoss < r.validationLoss then y else r) ys).validationLoss ≤
            (if y.validationLoss < r.validationLoss then y else r).validationLoss :=
        ih _ _ (List.mem_cons_self _ _)
      rcases List.mem_cons.mp hx with h1 | h1
      · rw [h1]; exact hmin.trans hle_r
      rcases List.mem_cons.mp h1 with h2 | h2
      · rw [h2]; exact hmin.trans hle_y
      · exact ih _ x (List.mem_cons_of_mem _ h2)

lemma initRun_none (sys0 : SystemState) :
    initRun none sys0 = ⟨false, 0, ⊤, -1, [], sys0⟩ := rfl

lemma initRun_some_nil (c : Checkpoint) (sys0 : SystemState) (hres : c.results = []) :
    initRun (some c) sys0 =
      ⟨false, 0, ⊤, -1, [],
       ⟨c.sys.model, c.sys.opt, if sys0.sched.isSome then c.sys.sched else sys0.sched⟩⟩ := by
  simp only [initRun]
  rw [hres]

lemma initRun_some_cons (c : Checkpoint) (sys0 : SystemState) (r : EpochRecord)
    (rs : List EpochRecord) (hres : c.results = r :: rs) :
    initRun (some c) sys0 =
      ⟨true, ((r :: rs).getLast (List.cons_ne_nil r rs)).epoch + 1,
       ((pyMinLoss r rs).validationLoss : ℚ), ((pyMinLoss r rs).epoch : ℤ), r :: rs,
       ⟨c.sys.model, c.sys.opt, if sys0.sched.isSome then c.sys.sched else sys0.sched⟩⟩ := by
  simp only [initRun]
  rw [hres]

/-! ## C1: inclusive best-checkpoint update -/

/-- C1.  In the per-epoch body, whenever the epoch's mean validation loss
is `≤` the minimum seen so far (inclusive: a tie counts as an improvement),
the supervisor updates `min_val_loss` to it, sets `best_epoch` to the
current epoch, and appends a `best` checkpoint write carrying the current
epoch's system state, the updated minimum, the records including the
current epoch, and the current epoch index; the loop then continues. -/
theorem best_checkpoint_update_on_le (tl vl : ℕ → ℚ) (sysAt : ℕ → SystemState)
    (es : ℤ) (epoch : ℕ) (st : LoopState)
    (h : ((vl epoch : ℚ) : WithTop ℚ) ≤ st.min_val_loss) :
    epochStep tl vl sysAt es epoch st =
      (⟨st.results ++ [⟨epoch, tl epoch, vl epoch⟩],
        ((vl epoch : ℚ) : WithTop ℚ), (epoch : ℤ),
        st.lastSaves ++ [⟨sysAt epoch, st.min_val_loss,
          st.results ++ [⟨epoch, tl epoch, vl epoch⟩], epoch⟩],
        st.bestSaves ++ [⟨sysAt epoch, ((vl epoch : ℚ) : WithTop ℚ),
          st.results ++ [⟨epoch, tl epoch, vl epoch⟩], epoch⟩]⟩, true) := by
  simp only [epochStep]
  rw [if_pos h]

/-- Witness for C1 at a tie: the current minimum is `1`, the new
validation loss is also `1`, and a fresh `best` write with the later
epoch's state (epoch `7`) is appended. -/
theorem best_checkpoint_update_on_le_witness :
    (((1 : ℚ) : WithTop ℚ) ≤ ((1 : ℚ) : WithTop ℚ)) ∧
    epochStep (fun _ => (0 : ℚ)) (fun _ => (1 : ℚ)) (fun e => ⟨e, e, none⟩) (-1) 7
        ⟨[⟨6, 0, 1⟩], ((1 : ℚ) : WithTop ℚ), 6, [], []⟩ =
      (⟨[⟨6, 0, 1⟩] ++ [⟨7, 0, 1⟩], ((1 : ℚ) : WithTop ℚ), (7 : ℕ),
        [] ++ [⟨⟨7, 7, none⟩, ((1 : ℚ) : WithTop ℚ), [⟨6, 0, 1⟩] ++ [⟨7, 0, 1⟩], 7⟩],
        [] ++ [⟨⟨7, 7, none⟩, ((1 : ℚ) : WithTop ℚ), [⟨6, 0, 1⟩] ++ [⟨7, 0, 1⟩], 7⟩]⟩, true) :=
  ⟨by decide,
   best_checkpoint_update_on_le (fun _ => (0 : ℚ)) (fun _ => (1 : ℚ)) (fun e => ⟨e, e, none⟩)
     (-1) 7 ⟨[⟨6, 0, 1⟩], ((1 : ℚ) : WithTop ℚ), 6, [], []⟩ (by decide)⟩

/-! ## C3: resume short-circuit -/

/-- C3.  When a `last` checkpoint is loaded and the restored epoch counter
(last recorded epoch + 1) already reaches or exceeds the configured epoch
count, `train_validate_model` returns immediately: no training step runs,
no checkpoint is written, and the return is the bare `return` (no value),
not an error. -/
theorem resume_short_circuit_no_training (num_epochs : ℕ) (c : Checkpoint)
    (sys0 : SystemState) (sysAt : ℕ → SystemState) (tl vl : ℕ → ℚ) (es : ℤ)
    (r : EpochRecord) (rs : List EpochRecord) (hres : c.results = r :: rs)
    (h : num_epochs ≤ ((r :: rs).getLast (List.cons_ne_nil r rs)).epoch + 1) :
    train_validate_model num_epochs (some c) sys0 sysAt tl vl es = ⟨none, [], []⟩ := by
  simp only [train_validate_model, initRun_some_cons c sys0 r rs hres]
  rw [if_pos ⟨trivial, h⟩]

/-- Witness for C3: a checkpoint whose last record is epoch `4` (so five
epochs are already trained) against a configured total of `3` epochs. -/
theorem resume_short_circuit_no_training_witness :
    ((⟨⟨1, 2, none⟩, ((3 : ℚ) : WithTop ℚ), [⟨3, 0, 4⟩, ⟨4, 0, 3⟩], 4⟩ : Checkpoint).results =
        (⟨3, 0, 4⟩ : EpochRecord) :: [⟨4, 0, 3⟩]) ∧
    (3 : ℕ) ≤
      (((⟨3, 0, 4⟩ : EpochRecord) :: [⟨4, 0, 3⟩]).getLast (List.cons_ne_nil _ _)).epoch + 1 ∧
    train_validate_model 3 (some ⟨⟨1, 2, none⟩, ((3 : ℚ) : WithTop ℚ), [⟨3, 0, 4⟩, ⟨4, 0, 3⟩], 4⟩)
        ⟨0, 0, none⟩ (fun _ => ⟨0, 0, none⟩) (fun _ => 0) (fun _ => 0) (-1) = ⟨none, [], []⟩ :=
  ⟨rfl, by decide,
   resume_short_circuit_no_training 3 ⟨⟨1, 2, none⟩, ((3 : ℚ) : WithTop ℚ), [⟨3, 0, 4⟩, ⟨4, 0, 3⟩], 4⟩
     ⟨0, 0, none⟩ (fun _ => ⟨0, 0, none⟩) (fun _ => 0) (fun _ => 0) (-1)
     ⟨3, 0, 4⟩ [⟨4, 0, 3⟩] rfl (by decide)⟩

/-! ## C4: resume initialization -/

/-- C4.  Loading a `last` checkpoint (with its nonempty record list
`r :: rs`) restores the model and optimizer states, restores the scheduler
state exactly when a scheduler is configured, keeps the record sequence,
sets the epoch counter to (last recorded epoch + 1), and recomputes the
minimum validation loss and best-epoch as the value and epoch of a record
attaining the minimal validation loss of the restored sequence; with no
checkpoint, the run starts with counter `0`, minimum `+∞` (`np.Inf`),
best-epoch `-1` and no records. -/
theorem resume_initialization_spec (c : Checkpoint) (sys0 : SystemState)
    (r : EpochRecord) (rs : List EpochRecord) (hres : c.results = r :: rs) :
    (initRun (some c) sys0).resumed = true ∧
    (initRun (some c) sys0).results = c.results ∧
    (initRun (some c) sys0).sys.model = c.sys.model ∧
    (initRun (some c) sys0).sys.opt = c.sys.opt ∧
    (sys0.sched.isSome = true → (initRun (some c) sys0).sys.sched = c.sys.sched) ∧
    (sys0.sched = none → (initRun (some c) sys0).sys.sched = none) ∧
    (initRun (some c) sys0).epochs_trained =
      ((r :: rs).getLast (List.cons_ne_nil r rs)).epoch + 1 ∧
    (initRun (some c) sys0).min_val_loss = ((pyMinLoss r rs).validationLoss : ℚ) ∧
    (initRun (some c) sys0).best_epoch = ((pyMinLoss r rs).epoch : ℤ) ∧
    pyMinLoss r rs ∈ c.results ∧
    (∀ x ∈ c.results, (pyMinLoss r rs).validationLoss ≤ x.validationLoss) ∧
    initRun none sys0 = ⟨false, 0, ⊤, -1, [], sys0⟩ := by
  rw [initRun_some_cons c sys0 r rs hres, hres]
  refine ⟨rfl, rfl, rfl, rfl, ?_, ?_, rfl, rfl, rfl, pyMinLoss_mem r rs, pyMinLoss_le r rs, rfl⟩
  · intro h; simp [h]
  · intro h; simp [h]

/-- Witness for C4: a two-record checkpoint (minimum at epoch `4`), loaded
with a configured scheduler. -/
theorem resume_initialization_spec_witness :
    ((⟨⟨1, 2, some 9⟩, ⊤, [⟨3, 0, 4⟩, ⟨4, 0, 3⟩], 4⟩ : Checkpoint).results =
        (⟨3, 0, 4⟩ : EpochRecord) :: [⟨4, 0, 3⟩]) ∧
    ((initRun (some ⟨⟨1, 2, some 9⟩, ⊤, [⟨3, 0, 4⟩, ⟨4, 0, 3⟩], 4⟩) ⟨0, 0, some 0⟩).resumed = true ∧
     (initRun (some ⟨⟨1, 2, some 9⟩, ⊤, [⟨3, 0, 4⟩, ⟨4, 0, 3⟩], 4⟩) ⟨0, 0, some 0⟩).results =
       (⟨⟨1, 2, some 9⟩, ⊤, [⟨3, 0, 4⟩, ⟨4, 0, 3⟩], 4⟩ : Checkpoint).results ∧
     (initRun (some ⟨⟨1, 2, some 9⟩, ⊤, [⟨3, 0, 4⟩, ⟨4, 0, 3⟩], 4⟩) ⟨0, 0, some 0⟩).sys.model =
       (⟨⟨1, 2, some 9⟩, ⊤, [⟨3, 0, 4⟩, ⟨4, 0, 3⟩], 4⟩ : Checkpoint).sys.model ∧
     (initRun (some ⟨⟨1, 2, some 9⟩, ⊤, [⟨3, 0, 4⟩, ⟨4, 0, 3⟩], 4⟩) ⟨0, 0, some 0⟩).sys.opt =
       (⟨⟨1, 2, some 9⟩, ⊤, [⟨3, 0, 4⟩, ⟨4, 0, 3⟩], 4⟩ : Checkpoint).sys.opt ∧
     ((⟨0, 0, some 0⟩ : SystemState).sched.isSome = true →
       (initRun (some ⟨⟨1, 2, some 9⟩, ⊤, [⟨3, 0, 4⟩, ⟨4, 0, 3⟩], 4⟩) ⟨0, 0, some 0⟩).sys.sched =
         (⟨⟨1, 2, some 9⟩, ⊤, [⟨3, 0, 4⟩, ⟨4, 0, 3⟩], 4⟩ : Checkpoint).sys.sched) ∧
     ((⟨0, 0, some 0⟩ : SystemState).sched = none →
       (initRun (some ⟨⟨1, 2, some 9⟩, ⊤, [⟨3, 0, 4⟩, ⟨4, 0, 3⟩], 4⟩) ⟨0, 0, some 0⟩).sys.sched =
         none) ∧
     (initRun (some ⟨⟨1, 2, some 9⟩, ⊤, [⟨3, 0, 4⟩, ⟨4, 0, 3⟩], 4⟩) ⟨0, 0, some 0⟩).epochs_trained =
       (((⟨3, 0, 4⟩ : EpochRecord) :: [⟨4, 0, 3⟩]).getLast (List.cons_ne_nil _ _)).epoch + 1 ∧
     (initRun (some ⟨⟨1, 2, some 9⟩, ⊤, [⟨3, 0, 4⟩, ⟨4, 0, 3⟩], 4⟩) ⟨0, 0, some 0⟩).min_val_loss =
       ((pyMinLoss ⟨3, 0, 4⟩ [⟨4, 0, 3⟩]).validationLoss : ℚ) ∧
     (initRun (some ⟨⟨1, 2, some 9⟩, ⊤, [⟨3, 0, 4⟩, ⟨4, 0, 3⟩], 4⟩) ⟨0, 0, some 0⟩).best_epoch =
       ((pyMinLoss ⟨3, 0, 4⟩ [⟨4, 0, 3⟩]).epoch : ℤ) ∧
     pyMinLoss ⟨3, 0, 4⟩ [⟨4, 0, 3⟩] ∈
       (⟨⟨1, 2, some 9⟩, ⊤, [⟨3, 0, 4⟩, ⟨4, 0, 3⟩], 4⟩ : Checkpoint).results ∧
     (∀ x ∈ (⟨⟨1, 2, some 9⟩, ⊤, [⟨3, 0, 4⟩, ⟨4, 0, 3⟩], 4⟩ : Checkpoint).results,
       (pyMinLoss ⟨3, 0, 4⟩ [⟨4, 0, 3⟩]).validationLoss ≤ x.validationLoss) ∧
     initRun none ⟨0, 0, some 0⟩ = ⟨false, 0, ⊤, -1, [], ⟨0, 0, some 0⟩⟩) :=
  ⟨rfl,
   resume_initialization_spec ⟨⟨1, 2, some 9⟩, ⊤, [⟨3, 0, 4⟩, ⟨4, 0, 3⟩], 4⟩ ⟨0, 0, some 0⟩
     ⟨3, 0, 4⟩ [⟨4, 0, 3⟩] rfl⟩

/-! ## C10: return value on short-circuit vs loop exit -/

/-- C10.  The resume short-circuit is the only path on which
`train_validate_model` returns no value (`none`); on every other path —
loop exhaustion or early stop — the function returns the final record
sequence produced by the epoch loop.  The first conjunct grounds the
short-circuit guard: a run is `resumed` exactly when a checkpoint with a
nonempty record list was loaded. -/
theorem returns_none_iff_short_circuit (num_epochs : ℕ) (ckpt : Option Checkpoint)
    (sys0 : SystemState) (sysAt : ℕ → SystemState) (tl vl : ℕ → ℚ) (es : ℤ) :
    ((initRun ckpt sys0).resumed = true ↔
      ∃ c r rs, ckpt = some c ∧ c.results = r :: rs) ∧
    ((train_validate_model num_epochs ckpt sys0 sysAt tl vl es).returned = none ↔
      ((initRun ckpt sys0).resumed = true ∧
        num_epochs ≤ (initRun ckpt sys0).epochs_trained)) ∧
    (¬((initRun ckpt sys0).resumed = true ∧
        num_epochs ≤ (initRun ckpt sys0).epochs_trained) →
      (train_validate_model num_epochs ckpt sys0 sysAt tl vl es).returned =
        some ((runEpochs tl vl sysAt es (num_epochs - (initRun ckpt sys0).epochs_trained)
          (initRun ckpt sys0).epochs_trained
          ⟨(initRun ckpt sys0).results, (initRun ckpt sys0).min_val_loss,
           (initRun ckpt sys0).best_epoch, [], []⟩).results)) := by
  refine ⟨?_, ?_, ?_⟩
  · constructor
    · intro h
      match ckpt with
      | none => simp [initRun_none] at h
      | some c =>
          match hres : c.results with
          | [] => rw [initRun_some_nil c sys0 hres] at h; simp at h
          | r :: rs => exact ⟨c, r, rs, rfl, hres⟩
    · rintro ⟨c, r, rs, rfl, hres⟩
      rw [initRun_some_cons c sys0 r rs hres]
  · by_cases h : (initRun ckpt sys0).resumed = true ∧
        num_epochs ≤ (initRun ckpt sys0).epochs_trained
    · simp only [train_validate_model]
      rw [if_pos h]
      simp [h]
    · simp only [train_validate_model]
      rw [if_neg h]
      simp [h]
  · intro h
    simp only [train_validate_model]
    rw [if_neg h]

/-- Witness for C10: a fresh run (no checkpoint) of one epoch is not
short-circuited and returns its record list. -/
theorem returns_none_iff_short_circuit_witness :
    ¬((initRun none ⟨0, 0, none⟩).resumed = true ∧
        (1 : ℕ) ≤ (initRun none ⟨0, 0, none⟩).epochs_trained) ∧
    (train_validate_model 1 none ⟨0, 0, none⟩ (fun _ => ⟨0, 0, none⟩) (fun _ => 0)
        (fun _ => 0) (-1)).returned =
      some ((runEpochs (fun _ => 0) (fun _ => 0) (fun _ => ⟨0, 0, none⟩) (-1)
        (1 - (initRun none ⟨0, 0, none⟩).epochs_trained)
        (initRun none ⟨0, 0, none⟩).epochs_trained
        ⟨(initRun none ⟨0, 0, none⟩).results, (initRun none ⟨0, 0, none⟩).min_val_loss,
         (initRun none ⟨0, 0, none⟩).best_epoch, [], []⟩).results) :=
  ⟨by decide,
   (returns_none_iff_short_circuit 1 none ⟨0, 0, none⟩ (fun _ => ⟨0, 0, none⟩) (fun _ => 0)
      (fun _ => 0) (-1)).2.2 (by decide)⟩

/-! ## C2: early stopping -/

/-- The validation-loss schedule `[0.5, 0.4, 0.45, 0.46, 0.47]` of the
early-stopping example (losses as exact rationals). -/
def exampleLosses : ℕ → ℚ :=
  fun e => [Rat.divInt 1 2, Rat.divInt 2 5, Rat.divInt 9 20,
            Rat.divInt 23 50, Rat.divInt 47 100].getD e 0

/-- C2 fails on the code in two ways.  (i) The code enables early stopping
whenever `early_stop != -1`, so the *negative* patience `-2` also enables
it: a fresh 3-epoch run with worsening losses breaks after epoch 1 and
writes only 2 `last` checkpoints, while the claim (early stopping enabled
exactly for non-negative patience) predicts 3.  (ii) On the worked example
(patience 2, losses `[0.5, 0.4, 0.45, 0.46, 0.47]`) the code writes *two*
`best` checkpoints (epoch 0: `0.5 ≤ inf`, epoch 1: `0.4 ≤ 0.5`), not
exactly one. -/
theorem early_stop_sentinel_counterexample :
    ¬((train_validate_model 3 none ⟨0, 0, none⟩ (fun _ => ⟨0, 0, none⟩) (fun _ => 0)
          (fun e => [(1 : ℚ), 2, 2].getD e 0) (-2)).lastSaves.length = 3 ∧
      (train_validate_model 5 none ⟨0, 0, none⟩ (fun _ => ⟨0, 0, none⟩) (fun _ => 0)
          exampleLosses 2).bestSaves.length = 1) := by
  decide

/-- C2 (amended).  Early stopping is enabled exactly when the patience
value differs from the sentinel `-1` (any other value, negative ones
included, enables it); after a non-improving epoch the loop breaks iff
`epoch - best_epoch > patience`.  On the worked example (patience 2,
losses `[0.5, 0.4, 0.45, 0.46, 0.47]`) training stops after epoch 4:
five `last` checkpoints are written (epochs 0–4, none beyond) and *two*
`best` checkpoints (epochs 0 and 1), the final best file holding
epoch 1's state. -/
theorem early_stop_behavior_amended :
    (∀ (tl vl : ℕ → ℚ) (sysAt : ℕ → SystemState) (es : ℤ) (epoch : ℕ) (st : LoopState),
        ¬(((vl epoch : ℚ) : WithTop ℚ) ≤ st.min_val_loss) →
        ((epochStep tl vl sysAt es epoch st).2 = false ↔
          (es ≠ -1 ∧ (epoch : ℤ) - st.best_epoch > es))) ∧
    (train_validate_model 5 none ⟨0, 0, none⟩ (fun _ => ⟨0, 0, none⟩) (fun _ => 0)
        exampleLosses 2).lastSaves.map Checkpoint.epoch = [0, 1, 2, 3, 4] ∧
    (train_validate_model 5 none ⟨0, 0, none⟩ (fun _ => ⟨0, 0, none⟩) (fun _ => 0)
        exampleLosses 2).bestSaves.map Checkpoint.epoch = [0, 1] := by
  refine ⟨?_, by decide, by decide⟩
  intro tl vl sysAt es epoch st h
  simp only [epochStep]
  rw [if_neg h]
  by_cases hc : es ≠ -1 ∧ (epoch : ℤ) - st.best_epoch > es
  · rw [if_pos hc]
    simpa using hc
  · rw [if_neg hc]
    simpa using hc

/-- Witness for the amended C2 at a concrete non-improving epoch: patience
`2`, epoch `4`, best epoch `1`, so `4 - 1 > 2` and the loop breaks. -/
theorem early_stop_behavior_amended_witness :
    ¬(((2 : ℚ) : WithTop ℚ) ≤ ((1 : ℚ) : WithTop ℚ)) ∧
    ((epochStep (fun _ => 0) (fun _ => 2) (fun _ => ⟨0, 0, none⟩) 2 4
        ⟨[], ((1 : ℚ) : WithTop ℚ), 1, [], []⟩).2 = false ↔
      ((2 : ℤ) ≠ -1 ∧ ((4 : ℕ) : ℤ) - (1 : ℤ) > 2)) :=
  ⟨by decide,
   early_stop_behavior_amended.1 (fun _ => 0) (fun _ => 2) (fun _ => ⟨0, 0, none⟩) 2 4
     ⟨[], ((1 : ℚ) : WithTop ℚ), 1, [], []⟩ (by decide)⟩

/-! ## Helper lemmas on list indexing -/

lemma getD_zipWith {α β γ : Type} (f : α → β → γ) (a : List α) (b : List β)
    (i : ℕ) (da : α) (db : β) (dc : γ) (ha : i < a.length) (hb : i < b.length) :
    (List.zipWith f a b).getD i dc = f (a.getD i da) (b.getD i db) := by
  induction a generalizing b i with
  | nil => simp at ha
  | cons x xs ih =>
      cases b with
      | nil => simp at hb
      | cons y ys =>
          cases i with
          | zero => simp
          | succ n =>
              simp only [List.zipWith_cons_cons, List.getD_cons_succ]
              exact ih ys n (by simpa using ha) (by simpa using hb)

lemma getD_map_of_lt {α β : Type} (f : α → β) (l : List α) (i : ℕ) (da : α) (db : β)
    (h : i < l.length) : (l.map f).getD i db = f (l.getD i da) := by
  induction l generalizing i with
  | nil => simp at h
  | cons x xs ih =>
      cases i with
      | zero => simp
      | succ n =>
          simp only [List.map_cons, List.getD_cons_succ]
          exact ih n (by simpa using h)

lemma getD_rangeMap {α : Type} (f : ℕ → α) (n i : ℕ) (d : α) (h : i < n) :
    ((List.range n).map f).getD i d = f i := by
  rw [getD_map_of_lt f (List.range n) i 0 d (by simpa using h),
    List.getD_eq_getElem _ _ (by simpa using h), List.getElem_range]

lemma getD_le_sum (l : List ℕ) (i : ℕ) : l.getD i 0 ≤ l.sum := by
  induction l generalizing i with
  | nil => simp
  | cons x xs ih =>
      cases i with
      | zero => simp
      | succ n =>
          simp only [List.getD_cons_succ, List.sum_cons]
          exact (ih n).trans (Nat.le_add_left _ _)

/-! ## C8: the `matrix` argument of `compute` -/

/-- C8 fails on the code: a falsy supplied matrix silently falls back to
the internal accumulated matrix.  With internal matrix `[[5]]` and
supplied matrix `[[0]]` (one element, zero, hence falsy under `if matrix:`),
`compute` returns the snapshot of `[[5]]`, not of `[[0]]`. -/
theorem compute_matrix_truthiness_counterexample :
    IoU.compute ⟨0, 1, [[5]]⟩ (some [[0]]) = Except.ok (computeFrom [[5]]) ∧
    IoU.compute ⟨0, 1, [[5]]⟩ (some [[0]]) ≠ Except.ok (computeFrom [[0]]) := by
  refine ⟨rfl, fun h => ?_⟩
  have h1 : (Except.ok (computeFrom [[5]]) : Except Unit MetricSnapshot) =
      Except.ok (computeFrom [[0]]) := h
  injection h1 with h2
  exact absurd (congrArg MetricSnapshot.matrix h2) (by decide)

/-- C8 (amended).  `compute()` with no matrix argument uses the internal
accumulated matrix.  A supplied matrix is used exactly when its numpy
truth value is defined and true; a falsy supplied matrix (empty, or a
single zero entry) silently falls back to the internal matrix; a supplied
matrix with more than one element makes the `if matrix:` truthiness test
raise. -/
theorem compute_matrix_argument_amended (st : IoU) (m : List (List ℕ)) :
    (IoU.compute st none = Except.ok (computeFrom st.confusion_matrix)) ∧
    (npTruthy m = Except.ok true →
      IoU.compute st (some m) = Except.ok (computeFrom m)) ∧
    (npTruthy m = Except.ok false →
      IoU.compute st (some m) = Except.ok (computeFrom st.confusion_matrix)) ∧
    (npTruthy m = Except.error () →
      IoU.compute st (some m) = Except.error ()) := by
  refine ⟨rfl, ?_, ?_, ?_⟩ <;> intro h <;> simp [IoU.compute, h]

/-- Witness for the amended C8: a truthy one-element matrix `[[7]]` is
used in place of the internal `[[5]]`. -/
theorem compute_matrix_argument_amended_witness :
    (npTruthy [[7]] = Except.ok true) ∧
    IoU.compute ⟨0, 1, [[5]]⟩ (some [[7]]) = Except.ok (computeFrom [[7]]) :=
  ⟨rfl, (compute_matrix_argument_amended ⟨0, 1, [[5]]⟩ [[7]]).2.1 rfl⟩

/-! ## C9: evaluator mean loss and metric accumulation -/

lemma evalLoop_spec (lossOf : Batch → ℚ) (bs : List Batch) (acc : ℚ) (st : IoU) :
    evalLoop lossOf bs acc st =
      (acc + (bs.map lossOf).sum, bs.foldl (fun s b => s.update b.1 b.2) st) := by
  induction bs generalizing acc st with
  | nil => simp [evalLoop]
  | cons b bs ih => simp [evalLoop, ih, add_assoc]

/-- C9.  `evaluate_model` consumes the loader once, returns mean loss
`= (sum of per-batch losses) / (number of batches)` — the divisor is the
batch count, never the sample count — and the metric snapshot computed
from a fresh metric instance (`IoU.init`) updated exactly once per batch.
(The pass runs with gradients disabled, `torch.no_grad()`; that runtime
mode has no value-level counterpart here.) -/
theorem evaluate_model_mean_loss_per_batch (num_classes : ℕ) (lossOf : Batch → ℚ)
    (dataloader : List Batch) :
    (evaluate_model num_classes lossOf dataloader).1 =
      (dataloader.map lossOf).sum / (dataloader.length : ℚ) ∧
    (evaluate_model num_classes lossOf dataloader).2 =
      Except.ok (computeFrom
        ((dataloader.foldl (fun st b => st.update b.1 b.2)
          (IoU.init num_classes)).confusion_matrix)) := by
  constructor
  · simp [evaluate_model, evalLoop_spec]
  · simp [evaluate_model, evalLoop_spec, IoU.compute]

/-! ## C5: per-class IoU / F1 with NaN exclusion -/

lemma getD_mem_of_lt {α : Type} (l : List α) (i : ℕ) (d : α) (h : i < l.length) :
    l.getD i d ∈ l := by
  rw [List.getD_eq_getElem _ _ h]
  exact List.getElem_mem h

lemma diag_le_colsum (M : List (List ℕ)) (c : ℕ) (hc : c < M.length) :
    (M.getD c []).getD c 0 ≤ (M.map (fun r => r.getD c 0)).sum :=
  List.le_sum_of_mem (List.mem_map_of_mem _ (getD_mem_of_lt M c [] hc))

lemma computeFrom_iou_getD (hist : List (List ℕ)) (c : ℕ) (hc : c < hist.length) :
    (computeFrom hist).classwise_iou.getD c none =
      divNan ((hist.getD c []).getD c 0)
        ((hist.getD c []).sum + (hist.map (fun r => r.getD c 0)).sum -
          (hist.getD c []).getD c 0) := by
  have hd : (np_diag hist).length = hist.length := by simp [np_diag]
  have hrs : (sum_axis1 hist).length = hist.length := by simp [sum_axis1]
  have hcs : (sum_axis0 hist).length = hist.length := by simp [sum_axis0]
  simp only [computeFrom]
  rw [getD_zipWith divNan _ _ c 0 0 none (by omega)
    (by simp only [List.length_zipWith]; omega)]
  rw [getD_zipWith (fun a b => a - b) _ _ c 0 0 0
    (by simp only [List.length_zipWith]; omega) (by omega)]
  rw [getD_zipWith (· + ·) _ _ c 0 0 0 (by omega) (by omega)]
  unfold np_diag sum_axis0
  rw [getD_rangeMap _ _ _ _ hc, getD_rangeMap _ _ _ _ hc]
  unfold sum_axis1
  rw [getD_map_of_lt List.sum hist c [] 0 hc]

lemma computeFrom_f1_getD (hist : List (List ℕ)) (c : ℕ) (hc : c < hist.length) :
    (computeFrom hist).classwise_f1.getD c none =
      divNan (2 * ((hist.getD c []).getD c 0))
        ((hist.getD c []).sum + (hist.map (fun r => r.getD c 0)).sum) := by
  have hd : (np_diag hist).length = hist.length := by simp [np_diag]
  have hrs : (sum_axis1 hist).length = hist.length := by simp [sum_axis1]
  have hcs : (sum_axis0 hist).length = hist.length := by simp [sum_axis0]
  simp only [computeFrom]
  rw [getD_zipWith divNan _ _ c 0 0 none (by simp only [List.length_map]; omega)
    (by simp only [List.length_zipWith]; omega)]
  rw [getD_zipWith (· + ·) _ _ c 0 0 0 (by omega) (by omega)]
  rw [getD_map_of_lt (2 * ·) (np_diag hist) c 0 0 (by omega)]
  unfold np_diag sum_axis0
  rw [getD_rangeMap _ _ _ _ hc, getD_rangeMap _ _ _ _ hc]
  unfold sum_axis1
  rw [getD_map_of_lt List.sum hist c [] 0 hc]


/-- C5.  For every accumulated matrix and class `c`:
`IoU[c] = M[c,c] / (row_sum[c] + col_sum[c] - M[c,c])` and
`F1[c] = 2·M[c,c] / (row_sum[c] + col_sum[c])`, computed as rationals; a
zero denominator — which happens exactly when row `c` and column `c` sum
to zero — yields NaN (`none`), and the mean IoU / mean F1 average only
the non-NaN classes (NaN entries are excluded, not counted as zero). -/
theorem per_class_iou_f1_nan_exclusion (hist : List (List ℕ)) (c : ℕ)
    (hc : c < hist.length) :
    ((computeFrom hist).classwise_iou.getD c none =
      if ((((hist.getD c []).sum : ℕ) : ℚ) +
            ((((hist.map (fun r => r.getD c 0)).sum : ℕ)) : ℚ) -
            (((hist.getD c []).getD c 0 : ℕ) : ℚ)) = 0 then none
      else some ((((hist.getD c []).getD c 0 : ℕ) : ℚ) /
        ((((hist.getD c []).sum : ℕ) : ℚ) +
          ((((hist.map (fun r => r.getD c 0)).sum : ℕ)) : ℚ) -
          (((hist.getD c []).getD c 0 : ℕ) : ℚ)))) ∧
    ((computeFrom hist).classwise_f1.getD c none =
      if (((hist.getD c []).sum : ℕ) : ℚ) +
          ((((hist.map (fun r => r.getD c 0)).sum : ℕ)) : ℚ) = 0
      then none
      else some ((2 * (((hist.getD c []).getD c 0 : ℕ) : ℚ)) /
        ((((hist.getD c []).sum : ℕ) : ℚ) +
          ((((hist.map (fun r => r.getD c 0)).sum : ℕ)) : ℚ)))) ∧
    (((((hist.getD c []).sum : ℕ) : ℚ) +
        ((((hist.map (fun r => r.getD c 0)).sum : ℕ)) : ℚ) -
        (((hist.getD c []).getD c 0 : ℕ) : ℚ) = 0) ↔
      ((hist.getD c []).sum = 0 ∧ (hist.map (fun r => r.getD c 0)).sum = 0)) ∧
    ((computeFrom hist).miou =
      if ((computeFrom hist).classwise_iou.filterMap id).length = 0 then none
      else some (((computeFrom hist).classwise_iou.filterMap id).sum /
        (((computeFrom hist).classwise_iou.filterMap id).length : ℚ))) ∧
    ((computeFrom hist).f1_mean =
      if ((computeFrom hist).classwise_f1.filterMap id).length = 0 then none
      else some (((computeFrom hist).classwise_f1.filterMap id).sum /
        (((computeFrom hist).classwise_f1.filterMap id).length : ℚ))) := by
  have h1 : (hist.getD c []).getD c 0 ≤ (hist.getD c []).sum := getD_le_sum _ _
  have h2 : (hist.getD c []).getD c 0 ≤ (hist.map (fun r => r.getD c 0)).sum :=
    diag_le_colsum hist c hc
  have hiff : (((((hist.getD c []).sum : ℕ) : ℚ) +
      ((((hist.map (fun r => r.getD c 0)).sum : ℕ)) : ℚ) -
      (((hist.getD c []).getD c 0 : ℕ) : ℚ)) = 0) ↔
      ((hist.getD c []).sum = 0 ∧ (hist.map (fun r => r.getD c 0)).sum = 0) := by
    constructor
    · intro h
      have hcast : ((((hist.getD c []).sum + (hist.map (fun r => r.getD c 0)).sum : ℕ)) : ℚ) =
          (((hist.getD c []).getD c 0 : ℕ) : ℚ) := by
        rw [Nat.cast_add]
        linarith
      have hnat : (hist.getD c []).sum + (hist.map (fun r => r.getD c 0)).sum =
          (hist.getD c []).getD c 0 := by exact_mod_cast hcast
      omega
    · rintro ⟨ha, hb⟩
      have hm : (hist.getD c []).getD c 0 = 0 := by omega
      rw [ha, hb, hm]
      norm_num
  refine ⟨?_, ?_, hiff, ?_, ?_⟩
  · rw [computeFrom_iou_getD hist c hc]
    unfold divNan
    by_cases hz : (hist.getD c []).sum + (hist.map (fun r => r.getD c 0)).sum -
        (hist.getD c []).getD c 0 = 0
    · rw [if_pos hz, if_pos (hiff.mpr (by omega))]
    · have hq : ¬((((hist.getD c []).sum : ℕ) : ℚ) +
          ((((hist.map (fun r => r.getD c 0)).sum : ℕ)) : ℚ) -
          (((hist.getD c []).getD c 0 : ℕ) : ℚ) = 0) := fun h => by
        have := hiff.mp h
        omega
      rw [if_neg hz, if_neg hq, Nat.cast_sub (by omega), Nat.cast_add]
  · rw [computeFrom_f1_getD hist c hc]
    unfold divNan
    by_cases hz : (hist.getD c []).sum + (hist.map (fun r => r.getD c 0)).sum = 0
    · rw [if_pos hz, if_pos (by exact_mod_cast congrArg (fun k : ℕ => (k : ℚ)) hz)]
    · have hq : ¬((((hist.getD c []).sum : ℕ) : ℚ) +
          ((((hist.map (fun r => r.getD c 0)).sum : ℕ)) : ℚ) = 0) := by
        intro h
        exact hz (by exact_mod_cast h)
      rw [if_neg hz, if_neg hq]
      rw [Nat.cast_mul, Nat.cast_add]
      norm_num
  · simp [computeFrom, nanmean]
  · simp [computeFrom, nanmean]

/-- Witness for C5 on the 2-class matrix `[[1,0],[0,0]]` with class `1`
absent from both truth and prediction: the theorem applies at `c = 1`. -/
theorem per_class_iou_f1_nan_exclusion_witness :
    (1 < ([[1, 0], [0, 0]] : List (List ℕ)).length) ∧
    (computeFrom [[1, 0], [0, 0]]).classwise_iou.getD 1 none =
      (if (((([[1, 0], [0, 0]] : List (List ℕ)).getD 1 []).sum : ℕ) : ℚ) +
            (((([[1, 0], [0, 0]] : List (List ℕ)).map (fun r => r.getD 1 0)).sum : ℕ) : ℚ) -
            (((([[1, 0], [0, 0]] : List (List ℕ)).getD 1 []).getD 1 0 : ℕ) : ℚ) = 0 then none
       else some ((((([[1, 0], [0, 0]] : List (List ℕ)).getD 1 []).getD 1 0 : ℕ) : ℚ) /
         ((((([[1, 0], [0, 0]] : List (List ℕ)).getD 1 []).sum : ℕ) : ℚ) +
           (((([[1, 0], [0, 0]] : List (List ℕ)).map (fun r => r.getD 1 0)).sum : ℕ) : ℚ) -
           (((([[1, 0], [0, 0]] : List (List ℕ)).getD 1 []).getD 1 0 : ℕ) : ℚ)))) :=
  ⟨by decide, (per_class_iou_f1_nan_exclusion [[1, 0], [0, 0]] 1 (by decide)).1⟩

/-! ## C6 / C7: batch accumulation and per-pixel cell increments -/

lemma argmaxAux_lt (xs : List ℚ) (best : ℕ) (bestv : ℚ) (i : ℕ) (h : best < i) :
    argmaxAux xs best bestv i < i + xs.length := by
  induction xs generalizing best bestv i with
  | nil => simpa [argmaxAux] using h
  | cons x l ih =>
      simp only [argmaxAux, List.length_cons]
      by_cases hx : bestv < x
      · rw [if_pos hx]
        have h2 := ih i x (i + 1) (by omega)
        omega
      · rw [if_neg hx]
        have h2 := ih best bestv (i + 1) (by omega)
        omega

lemma argmaxIdx_lt (l : List ℚ) (h : 0 < l.length) : argmaxIdx l < l.length := by
  cases l with
  | nil => simp at h
  | cons x xs =>
      have h2 := argmaxAux_lt xs 0 x 1 (by omega)
      simp only [argmaxIdx, List.length_cons]
      omega

lemma lt_foldr_bound (v : List ℕ) :
    ∀ x ∈ v, x < v.foldr (fun a b => max (a + 1) b) 0 := by
  induction v with
  | nil => simp
  | cons y ys ih =>
      intro x hx
      simp only [List.foldr_cons]
      rcases List.mem_cons.mp hx with rfl | h
      · exact lt_of_lt_of_le (Nat.lt_succ_self x) (le_max_left _ _)
      · exact lt_of_lt_of_le (ih x h) (le_max_right _ _)

lemma foldr_bound_le (v : List ℕ) (m : ℕ) (h : ∀ x ∈ v, x < m) :
    v.foldr (fun a b => max (a + 1) b) 0 ≤ m := by
  induction v with
  | nil => simp
  | cons y ys ih =>
      simp only [List.foldr_cons]
      have hy := h y (List.mem_cons_self y ys)
      have hys := ih (fun x hx => h x (List.mem_cons_of_mem y hx))
      omega

lemma np_bincount_of_lt (v : List ℕ) (m : ℕ) (h : ∀ x ∈ v, x < m) :
    np_bincount v m = (List.range m).map (fun k => v.count k) := by
  unfold np_bincount
  rw [Nat.max_eq_left (foldr_bound_le v m h)]

lemma np_bincount_getD (v : List ℕ) (m k : ℕ) :
    (np_bincount v m).getD k 0 = v.count k := by
  unfold np_bincount
  by_cases hk : k < max m (v.foldr (fun a b => max (a + 1) b) 0)
  · rw [getD_rangeMap _ _ _ _ hk]
  · rw [List.getD_eq_default _ _ (by simpa using Nat.le_of_not_lt hk)]
    symm
    rw [List.count_eq_zero]
    intro hmem
    exact hk (lt_of_lt_of_le (lt_foldr_bound v k hmem) (le_max_right _ _))

lemma zipWith_map_same {α β γ δ : Type} (f : α → β) (g : α → γ) (h : β → γ → δ)
    (l : List α) :
    List.zipWith h (l.map f) (l.map g) = l.map (fun x => h (f x) (g x)) := by
  induction l with
  | nil => simp
  | cons x xs ih => simp [ih]

lemma np_bincount_append (v1 v2 : List ℕ) (m : ℕ)
    (h1 : ∀ x ∈ v1, x < m) (h2 : ∀ x ∈ v2, x < m) :
    np_bincount (v1 ++ v2) m =
      List.zipWith (· + ·) (np_bincount v1 m) (np_bincount v2 m) := by
  have h12 : ∀ x ∈ v1 ++ v2, x < m := by
    intro x hx
    rcases List.mem_append.mp hx with h | h
    exacts [h1 x h, h2 x h]
  rw [np_bincount_of_lt _ _ h1, np_bincount_of_lt _ _ h2, np_bincount_of_lt _ _ h12,
    zipWith_map_same]
  apply List.map_congr_left
  intro k _
  exact List.count_append k v1 v2

lemma reshape2_zipWith (n : ℕ) (v w : List ℕ) :
    reshape2 n (List.zipWith (· + ·) v w) = matAdd (reshape2 n v) (reshape2 n w) := by
  unfold reshape2 matAdd
  rw [zipWith_map_same]
  apply List.map_congr_left
  intro i _
  rw [List.drop_zipWith, List.take_zipWith]

lemma fast_hist_vals_lt (n : ℕ) (l : List ℤ) (p : List ℕ) (hp : ∀ x ∈ p, x < n) :
    ∀ v ∈ ((l.zip p).filter (fun tp => decide (0 ≤ tp.1 ∧ tp.1 < (n : ℤ)))).map
        (fun tp => n * tp.1.toNat + tp.2), v < n * n := by
  intro v hv
  obtain ⟨tp, htp, rfl⟩ := List.mem_map.mp hv
  obtain ⟨t, q⟩ := tp
  have hf := List.mem_filter.mp htp
  have hcond := of_decide_eq_true hf.2
  have hq : q < n := hp q (List.of_mem_zip hf.1).2
  have ht : t.toNat < n := (Int.toNat_lt hcond.1).mpr hcond.2
  calc n * t.toNat + q < n * t.toNat + n := by omega
    _ = n * (t.toNat + 1) := by rw [Nat.mul_succ]
    _ ≤ n * n := Nat.mul_le_mul_left n (by omega)

lemma fast_hist_append (n : ℕ) (l1 l2 : List ℤ) (p1 p2 : List ℕ)
    (hlen : l1.length = p1.length)
    (hp1 : ∀ x ∈ p1, x < n) (hp2 : ∀ x ∈ p2, x < n) :
    IoU._fast_hist n (l1 ++ l2) (p1 ++ p2) =
      matAdd (IoU._fast_hist n l1 p1) (IoU._fast_hist n l2 p2) := by
  simp only [IoU._fast_hist]
  rw [List.zip_append hlen, List.filter_append, List.map_append,
    np_bincount_append _ _ _ (fast_hist_vals_lt n l1 p1 hp1) (fast_hist_vals_lt n l2 p2 hp2),
    reshape2_zipWith]

lemma zipWith_add_assoc (a b c : List ℕ) :
    List.zipWith (· + ·) (List.zipWith (· + ·) a b) c =
      List.zipWith (· + ·) a (List.zipWith (· + ·) b c) := by
  induction a generalizing b c with
  | nil => simp
  | cons x xs ih =>
      cases b with
      | nil => simp
      | cons y ys =>
          cases c with
          | nil => simp
          | cons z zs => simp [ih, Nat.add_assoc]

lemma matAdd_assoc (A B C : List (List ℕ)) :
    matAdd (matAdd A B) C = matAdd A (matAdd B C) := by
  unfold matAdd
  induction A generalizing B C with
  | nil => simp
  | cons a as ih =>
      cases B with
      | nil => simp
      | cons b bs =>
          cases C with
          | nil => simp
          | cons c cs => simp [zipWith_add_assoc, ih]

/-- C6.  Accumulation is batch-split invariant: updating the metric with
two batches in sequence produces exactly the same state (matrix included)
as one update on the concatenated batch — exact arithmetic, no batch-size
dependent bias.  The hypotheses are the call contract: within the first
batch, labels and predictions agree in pixel count, and every score row
has `num_classes` (> 0) entries so the argmax label is in range. -/
theorem confusion_update_batch_split_invariant (st : IoU)
    (p1 : List (List ℚ)) (l1 : List ℤ) (p2 : List (List ℚ)) (l2 : List ℤ)
    (hlen : l1.length = p1.length)
    (hrow1 : ∀ r ∈ p1, r.length = st.num_classes)
    (hrow2 : ∀ r ∈ p2, r.length = st.num_classes)
    (hn : 0 < st.num_classes) :
    (st.update p1 l1).update p2 l2 = st.update (p1 ++ p2) (l1 ++ l2) := by
  obtain ⟨im, n, cm⟩ := st
  simp only [IoU.update] at hrow1 hrow2 hn ⊢
  rw [List.map_append]
  rw [fast_hist_append n l1 l2 (p1.map argmaxIdx) (p2.map argmaxIdx)
    (by simpa using hlen)
    (by
      intro x hx
      obtain ⟨r, hr, rfl⟩ := List.mem_map.mp hx
      have h2 := argmaxIdx_lt r (by rw [hrow1 r hr]; exact hn)
      rw [hrow1 r hr] at h2
      exact h2)
    (by
      intro x hx
      obtain ⟨r, hr, rfl⟩ := List.mem_map.mp hx
      have h2 := argmaxIdx_lt r (by rw [hrow2 r hr]; exact hn)
      rw [hrow2 r hr] at h2
      exact h2)]
  rw [matAdd_assoc]

/-- Witness for C6: two concrete 2-class batches, updated in sequence and
as one concatenation, give identical states. -/
theorem confusion_update_batch_split_invariant_witness :
    (([0, 1] : List ℤ).length = ([[1, 0], [0, 1]] : List (List ℚ)).length) ∧
    (0 < (⟨0, 2, [[0, 0], [0, 0]]⟩ : IoU).num_classes) ∧
    ((⟨0, 2, [[0, 0], [0, 0]]⟩ : IoU).update [[1, 0], [0, 1]] [0, 1]).update [[0, 1]] [1] =
      (⟨0, 2, [[0, 0], [0, 0]]⟩ : IoU).update ([[1, 0], [0, 1]] ++ [[0, 1]]) ([0, 1] ++ [1]) :=
  ⟨by decide, by decide,
   confusion_update_batch_split_invariant ⟨0, 2, [[0, 0], [0, 0]]⟩ [[1, 0], [0, 1]] [0, 1]
     [[0, 1]] [1] (by decide) (by decide) (by decide) (by decide)⟩

lemma getD_take {α : Type} (l : List α) (k j : ℕ) (d : α) (hj : j < k) :
    (l.take k).getD j d = l.getD j d := by
  induction l generalizing k j with
  | nil => simp
  | cons x xs ih =>
      cases k with
      | zero => omega
      | succ k2 =>
          cases j with
          | zero => simp
          | succ j2 =>
              simp only [List.take_succ_cons, List.getD_cons_succ]
              exact ih k2 j2 (by omega)

lemma getD_drop {α : Type} (l : List α) (m j : ℕ) (d : α) :
    (l.drop m).getD j d = l.getD (m + j) d := by
  induction l generalizing m with
  | nil => simp
  | cons x xs ih =>
      cases m with
      | zero => simp
      | succ m2 =>
          have he : m2 + 1 + j = (m2 + j) + 1 := by omega
          rw [List.drop_succ_cons, ih m2, he, List.getD_cons_succ]

lemma reshape2_getD (n : ℕ) (v : List ℕ) (i j : ℕ) (hi : i < n) (hj : j < n) :
    ((reshape2 n v).getD i []).getD j 0 = v.getD (n * i + j) 0 := by
  unfold reshape2
  rw [getD_rangeMap _ _ _ _ hi, getD_take _ _ _ _ hj, getD_drop]

lemma encode_inj (n a b p j : ℕ) (hp : p < n) (hj : j < n)
    (h : n * a + p = n * b + j) : a = b ∧ p = j := by
  have hn : 0 < n := by omega
  have ha : (n * a + p) / n = a := by
    rw [Nat.mul_add_div hn, Nat.div_eq_of_lt hp, Nat.add_zero]
  have hb : (n * b + j) / n = b := by
    rw [Nat.mul_add_div hn, Nat.div_eq_of_lt hj, Nat.add_zero]
  have hab : a = b := by rw [← ha, ← hb, h]
  refine ⟨hab, ?_⟩
  subst hab
  omega

/-- C7.  In `update`/`_fast_hist`, with score rows of length
`num_classes > 0`: every argmax-predicted label is in range; the batch
matrix is exactly `num_classes × num_classes` (no index ever falls outside
it); every pixel surviving the ground-truth mask has its true label in
`[0, num_classes)` and predicted label `< num_classes`; and cell `(i, j)`
holds exactly the number of surviving pixels with true class `i` and
predicted class `j` — each surviving pixel increments exactly one cell by
one, and out-of-range ground-truth pixels are excluded. -/
theorem fast_hist_cell_increment_safety (n : ℕ) (hn : 0 < n)
    (label_true : List ℤ) (y_preds : List (List ℚ))
    (hrow : ∀ r ∈ y_preds, r.length = n) :
    (∀ p ∈ y_preds.map argmaxIdx, p < n) ∧
    (IoU._fast_hist n label_true (y_preds.map argmaxIdx)).length = n ∧
    (∀ row ∈ IoU._fast_hist n label_true (y_preds.map argmaxIdx), row.length = n) ∧
    (∀ tp ∈ (label_true.zip (y_preds.map argmaxIdx)).filter
        (fun tp => decide (0 ≤ tp.1 ∧ tp.1 < (n : ℤ))),
      0 ≤ tp.1 ∧ tp.1 < (n : ℤ) ∧ tp.2 < n) ∧
    (∀ i j, i < n → j < n →
      ((IoU._fast_hist n label_true (y_preds.map argmaxIdx)).getD i []).getD j 0 =
        ((label_true.zip (y_preds.map argmaxIdx)).filter
            (fun tp => decide (0 ≤ tp.1 ∧ tp.1 < (n : ℤ)))).count ((i : ℤ), j)) := by
  have hpred : ∀ p ∈ y_preds.map argmaxIdx, p < n := by
    intro p hp
    obtain ⟨r, hr, rfl⟩ := List.mem_map.mp hp
    have h2 := argmaxIdx_lt r (by rw [hrow r hr]; exact hn)
    rw [hrow r hr] at h2
    exact h2
  have hblen : ∀ (vals : List ℕ), n * n ≤ (np_bincount vals (n * n)).length := by
    intro vals
    unfold np_bincount
    simp only [List.length_map, List.length_range]
    exact Nat.le_max_left _ _
  refine ⟨hpred, ?_, ?_, ?_, ?_⟩
  · simp [IoU._fast_hist, reshape2]
  · intro row hrowmem
    simp only [IoU._fast_hist, reshape2, List.mem_map, List.mem_range] at hrowmem
    obtain ⟨i, hi, rfl⟩ := hrowmem
    have hb := hblen (((label_true.zip (y_preds.map argmaxIdx)).filter
      (fun tp => decide (0 ≤ tp.1 ∧ tp.1 < (n : ℤ)))).map
        (fun tp => n * tp.1.toNat + tp.2))
    have hmul : n * (i + 1) ≤ n * n := Nat.mul_le_mul_left n (by omega)
    rw [Nat.mul_succ] at hmul
    simp only [List.length_take, List.length_drop]
    omega
  · intro tp htp
    obtain ⟨t, q⟩ := tp
    have hf := List.mem_filter.mp htp
    have hcond := of_decide_eq_true hf.2
    exact ⟨hcond.1, hcond.2, hpred q (List.of_mem_zip hf.1).2⟩
  · intro i j hi hj
    simp only [IoU._fast_hist]
    rw [reshape2_getD n _ i j hi hj, np_bincount_getD,
      List.count_eq_countP, List.count_eq_countP, List.countP_map]
    apply List.countP_congr
    intro tp htp
    obtain ⟨t, q⟩ := tp
    have hf := List.mem_filter.mp htp
    have hcond : 0 ≤ t ∧ t < (n : ℤ) := of_decide_eq_true hf.2
    have hq : q < n := hpred q (List.of_mem_zip hf.1).2
    simp only [Function.comp, beq_iff_eq, Prod.mk.injEq]
    constructor
    · intro he
      have hinj := encode_inj n t.toNat i q j hq hj he
      exact ⟨by rw [← Int.toNat_of_nonneg hcond.1, hinj.1], hinj.2⟩
    · rintro ⟨rfl, rfl⟩
      simp

/-- Witness for C7 on a 2-class batch of three pixels whose last
ground-truth label (`5`) is out of range and excluded: cell `(0, 1)`
counts the surviving pixels with true class `0` and predicted class `1`. -/
theorem fast_hist_cell_increment_safety_witness :
    (0 < 2) ∧
    ((IoU._fast_hist 2 [0, 1, 5]
        (([[1, 0], [0, 1], [0, 1]] : List (List ℚ)).map argmaxIdx)).getD 0 []).getD 1 0 =
      (([0, 1, 5].zip (([[1, 0], [0, 1], [0, 1]] : List (List ℚ)).map argmaxIdx)).filter
          (fun tp => decide (0 ≤ tp.1 ∧ tp.1 < ((2 : ℕ) : ℤ)))).count (((0 : ℕ) : ℤ), 1) :=
  ⟨by decide,
   (fast_hist_cell_increment_safety 2 (by decide) [0, 1, 5] [[1, 0], [0, 1], [0, 1]]
     (by decide)).2.2.2.2 0 1 (by decide) (by decide)⟩
